import Mathlib

/-!
Verification of the talaria write-to-durable-columnar pipeline.

Shallow embedding of the core data model and operations:
- the type universe and schemas (`internal/encoding/typeof`),
- typed nullable column buffers and the `Columns` set (`internal/column/column.go`),
- the 24-byte key codec (`internal/encoding/key`),
- the disk row-buffer `Delete` with transaction splitting (`internal/storage/disk/disk.go`),
- the compaction tick and its merge tasks (`internal/storage/compact/compact.go`),
- the ORC merger's per-block column selection (`internal/storage/flush/flush.go`),
- the row transformation (`internal/encoding/block`).

Go maps are modelled as association lists (first-match lookup); machine integers as
`Nat` with explicit wrap-around where the width matters; fallible operations return
`Option`-valued errors.
-/

set_option autoImplicit false

namespace Talaria

/-- The type universe of `internal/encoding/typeof`: string (varchar), int32, int64,
float64, bool, timestamp, JSON and the unsupported marker (spec section 3). -/
inductive Typ where
  | string
  | int32
  | int64
  | float64
  | bool
  | timestamp
  | json
  | unsupported
deriving DecidableEq, Repr

/-- A dynamic scalar value, the tagged-variant view of Go's type-erased cell value
(spec section 9: `Value = Null | Str | I32 | I64 | F64 | Bool | Ts | JsonBytes`;
null is represented as `Option.none` around this type). Float payloads are kept
opaque as integers since no claim computes on them. -/
inductive Value where
  | str (s : String)
  | i32 (n : Int)
  | i64 (n : Int)
  | f64 (n : Int)
  | bool (b : Bool)
  | ts (sec ns : Int)
  | json (s : String)
deriving DecidableEq, Repr

/-- The dynamic type of a value. -/
def Value.kindOf : Value → Typ
  | .str _ => .string
  | .i32 _ => .int32
  | .i64 _ => .int64
  | .f64 _ => .float64
  | .bool _ => .bool
  | .ts _ _ => .timestamp
  | .json _ => .json

/-- A schema maps column names to types (Go: `typeof.Schema`, a map); modelled as an
association list with first-match lookup. -/
abbrev Schema := List (String × Typ)

/-- Modelled from the spec: `typeof.Schema.Union` is not under src/. Spec section 3:
two schemas have a well-defined union iff for every common name the types are
identical; the union is the name-wise merge; otherwise the union fails. -/
def Schema.union (s other : Schema) : Option Schema :=
  other.foldl
    (fun acc p =>
      match acc with
      | none => none
      | some merged =>
        match List.lookup p.1 merged with
        | some t => if t = p.2 then some merged else none
        | none => some (merged ++ [p]))
    (some s)

/-- A typed, appendable, nullable column buffer (spec section 4.1). The concrete
presto thrift columns are not under src/; modelled from the spec as the stored
type together with the list of cells, where a cell is a value or a null marker. -/
structure Column where
  kind : Typ
  data : List (Option Value)
deriving DecidableEq, Repr

/-- Count of a column: the number of cells appended (spec section 3). -/
def Column.count (c : Column) : Nat := c.data.length

/-- Modelled from the spec: the per-append byte cost of the typed buffers is
implementation-defined (spec section 3, "Size in bytes is implementation-defined");
modelled as one unit per appended cell, which keeps successful appends nonzero. -/
def Typ.cellBytes (_t : Typ) : Nat := 1

/-- The cell stored for a dynamic value in a column of type `t`: `nil` records a
null; a value of mismatching dynamic type is recorded as a null as well
(spec section 4.1: "a test-visible choice is to treat it as nil"). -/
def cell (t : Typ) (v : Option Value) : Option Value :=
  match v with
  | none => none
  | some w => if w.kindOf = t then some w else none

/-- Column `Append`: stores the cell and reports the bytes added. -/
def Column.app (c : Column) (v : Option Value) : Column × Nat :=
  ({ c with data := c.data ++ [cell c.kind v] }, c.kind.cellBytes)

/-- Appending `n` nulls in a loop (the pre-pad and fill loops of column.go). -/
def Column.appN (c : Column) : Nat → Column × Nat
  | 0 => (c, 0)
  | n + 1 =>
    let r := c.app none
    let r2 := r.1.appN n
    (r2.1, r.2 + r2.2)

/-- `column.NewColumn`: a fresh empty column of the given type. -/
def Column.new (t : Typ) : Column := ⟨t, []⟩

/-- `column.IsValidName` (column.go:14): the name must match
the anchored pattern letter-or-underscore followed by alphanumerics-or-underscores. -/
def IsValidName (name : String) : Bool :=
  match name.toList with
  | [] => false
  | c :: rest => (c.isAlpha || c == '_') && rest.all (fun d => d.isAlphanum || d == '_')

/-- A set of named columns (Go: `column.Columns`, a map name to column); modelled
as an association list with first-match lookup. -/
abbrev Columns := List (String × Column)

/-- `Columns.Max` (column.go:70): the maximum count across the set. -/
def Columns.max (c : Columns) : Nat :=
  (c.map (fun p => p.2.count)).foldr Nat.max 0

/-- `Columns.Append` (column.go:43): reject invalid names; delegate to an existing
column; skip unsupported types; otherwise create a fresh column, pre-pad it with
`Max()-1` nulls and append the value. Returns the updated set and the bytes added. -/
def Columns.append (c : Columns) (name : String) (v : Option Value) (t : Typ) :
    Columns × Nat :=
  if IsValidName name then
    match List.lookup name c with
    | some col =>
      let r := col.app v
      (c.map (fun p => if p.1 = name then (p.1, r.1) else p), r.2)
    | none =>
      if t = .unsupported then (c, 0)
      else
        let r := (Column.new t).appN (Columns.max c - 1)
        let r2 := r.1.app v
        (c ++ [(name, r2.1)], r.2 + r2.2)
  else (c, 0)

/-- `Columns.FillNulls` (column.go:89): appends nulls onto every column until it
reaches the maximum count; returns the updated set and the bytes added. -/
def Columns.fillNulls (c : Columns) : Columns × Nat :=
  let m := Columns.max c
  (c.map (fun p => (p.1, (p.2.appN (m - p.2.count)).1)),
   (c.map (fun p => (p.2.appN (m - p.2.count)).2)).sum)

/-- A storage key: a sequence of bytes (each < 256), compared lexicographically. -/
abbrev Key := List Nat

/-- The eight big-endian bytes of a 64-bit quantity. -/
def beBytes8 (n : Nat) : List Nat :=
  [n / 2 ^ 56 % 256, n / 2 ^ 48 % 256, n / 2 ^ 40 % 256, n / 2 ^ 32 % 256,
   n / 2 ^ 24 % 256, n / 2 ^ 16 % 256, n / 2 ^ 8 % 256, n % 256]

/-- Modelled from the spec: the key codec (`internal/encoding/key`) is not under
src/; spec section 3, "Key (24 bytes)": bytes 0..7 the big-endian hashBy value,
bytes 8..15 the big-endian sortBy timestamp, bytes 16..23 the unique
disambiguator. -/
def Key.new (hashBy sortBy unique : Nat) : Key :=
  beBytes8 hashBy ++ beBytes8 sortBy ++ beBytes8 unique

/-- Modelled from the spec: `key.HashOf` (`internal/encoding/key`) is not under
src/; spec section 8, invariant 4: `HashOf(k)` = first 8 bytes of `k`. -/
def Key.hashOf (k : Key) : List Nat := k.take 8

/-- Big-endian value of a byte sequence. -/
def beVal (bs : List Nat) : Nat := bs.foldl (fun a b => a * 256 + b) 0

/-- The numeric view of the hash component as held by the compactor
(compact.go:73 declares it as a 32-bit unsigned accumulator with 0 as the
initial sentinel), reduced modulo 2^32 for the machine width. -/
def Key.hashOf32 (k : Key) : Nat := beVal (Key.hashOf k) % 2 ^ 32

/-- Modelled from the spec: a block (`internal/encoding/block` is under src/ only
through its tests) carries a schema and one column per schema entry of equal
lengths (spec section 3); modelled as its `Columns` set, with the schema derived
from the columns. -/
abbrev Block := Columns

/-- The schema of a block: each column name mapped to its column's type. -/
def Block.schema (b : Block) : Schema := b.map (fun p => (p.1, p.2.kind))

/-- Modelled from the spec, section 4.3: `Select(schema)` returns the columns of
the block whose names appear in the schema. -/
def Block.select (b : Block) (s : Schema) : Columns :=
  b.filter (fun p => (List.lookup p.1 s).isSome)

/-- Error kinds surfaced by the storage layer: `errors.New` produces a plain
error, `errors.Internal` a wrapped internal one (`internal/monitor/errors`). -/
inductive Err where
  | generic (msg : String)
  | internal (msg : String)
deriving DecidableEq, Repr

/-- Whether an error is an Internal error. -/
def Err.isInternal : Err → Bool
  | .internal _ => true
  | .generic _ => false

/-- The message of the closed-database error (disk.go:27). -/
def errClosed : String := "unable to run commands on a closed database"

/-- An abstract view of the badger engine as exercised by `disk.Delete`:
`txnCap` is the number of pending writes a transaction accepts before a delete
reports transaction-too-big, `failOn` the keys on which the engine's delete
hard-fails, and `commitFailAt` the commit sequence numbers whose commit fails. -/
structure DeleteEngine where
  txnCap : Nat
  failOn : List Key
  commitFailAt : List Nat
deriving DecidableEq, Repr

/-- Result of one engine delete attempt inside a transaction. -/
inductive TxnRes where
  | ok
  | tooBig
  | failed
deriving DecidableEq, Repr

/-- One `txn.Delete(key)` attempt with the given number of pending writes. -/
def DeleteEngine.attempt (eng : DeleteEngine) (pendingLen : Nat) (k : Key) : TxnRes :=
  if k ∈ eng.failOn then .failed
  else if eng.txnCap ≤ pendingLen then .tooBig
  else .ok

/-- Committing a transaction applies its pending deletions to the store. -/
def applyDel {α : Type} (ks : List Key) (st : List (Key × α)) : List (Key × α) :=
  st.filter (fun p => decide (p.1 ∉ ks))

/-- The key loop of `disk.Delete` (disk.go:180): delete each key inside the
current transaction; on transaction-too-big, commit, open a fresh transaction and
re-issue the delete (any error there is Internal); on any other engine error fail
with Internal; finally commit. `committed` is the store as visible after the
commits so far, `pending` the uncommitted deletions, `cIdx` the commit sequence
number. -/
def deleteLoop {α : Type} (eng : DeleteEngine) (committed : List (Key × α))
    (pending : List Key) (cIdx : Nat) : List Key → List (Key × α) × Option Err
  | [] =>
    if cIdx ∈ eng.commitFailAt then (committed, some (.internal "unable to delete"))
    else (applyDel pending committed, none)
  | k :: rest =>
    match eng.attempt pending.length k with
    | .failed => (committed, some (.internal "unable to delete"))
    | .tooBig =>
      if cIdx ∈ eng.commitFailAt then (committed, some (.internal "unable to delete"))
      else
        let committed' := applyDel pending committed
        match eng.attempt 0 k with
        | .ok => deleteLoop eng committed' [k] (cIdx + 1) rest
        | _ => (committed', some (.internal "unable to delete"))
    | .ok => deleteLoop eng committed (pending ++ [k]) cIdx rest

/-- `disk.Delete` (disk.go:174): reject when closed, otherwise run the
transactional delete loop over the keys. -/
def diskDelete {α : Type} (eng : DeleteEngine) (closed : Bool)
    (st : List (Key × α)) (keys : List Key) : List (Key × α) × Option Err :=
  if closed then (st, some (.generic errClosed))
  else deleteLoop eng st [] 0 keys

/-- A merge task captured by the compactor: the consumed keys, the accumulated
blocks and the unioned schema (compact.go:115). -/
structure MergeJob where
  keys : List Key
  blocks : List Block
  schema : Schema
deriving DecidableEq, Repr

/-- The state threaded through one compaction tick (compact.go:72): the current
hash accumulator, the accumulated blocks, their keys, the unioned schema, the
merge jobs scheduled so far and the number of decode failures logged. -/
structure TickState where
  hash : Nat
  blocks : List Block
  merged : List Key
  schema : Schema
  jobs : List MergeJob
  decodeFailures : Nat
deriving DecidableEq, Repr

/-- The range callback of `compact.Compact` (compact.go:79) on one `(k, v)` entry;
a buffer value either decodes to a block (`some`) or fails to decode (`none`).
Returns the new state and the boolean handed back to `Range`. On decode failure
the error is logged and the callback returns `true`. Otherwise the hash is
updated; if this is the first record or the hash is unchanged and the schema
union succeeds, the block is accumulated and `false` returned; otherwise the
current accumulator is scheduled as a merge job, the accumulator reset, and
`false` returned (the current record is dropped). -/
def compactStep (st : TickState) (k : Key) (v : Option Block) : TickState × Bool :=
  match v with
  | none => ({ st with decodeFailures := st.decodeFailures + 1 }, true)
  | some input =>
    let previous := st.hash
    let h := Key.hashOf32 k
    let u := Schema.union st.schema (Block.schema input)
    if previous = 0 ∨ (u.isSome ∧ h = previous) then
      ({ st with hash := h, blocks := st.blocks ++ [input],
                 merged := st.merged ++ [k], schema := u.getD [] }, false)
    else
      ({ st with hash := h, jobs := st.jobs ++ [⟨st.merged, st.blocks, st.schema⟩],
                 schema := [], blocks := [], merged := [] }, false)

/-- `disk.Range` iteration semantics (disk.go:129): visit the entries in order
and stop as soon as the callback returns `true`. -/
def runRange (st : TickState) : List (Key × Option Block) → TickState
  | [] => st
  | (k, v) :: rest =>
    let r := compactStep st k v
    if r.2 then r.1 else runRange r.1 rest

/-- The initial state of a compaction tick (compact.go:73). -/
def initTick : TickState := ⟨0, [], [], [], [], 0⟩

/-- One compaction tick over the buffer contents (compact.go:72): range over all
entries, then schedule one final merge job from whatever was accumulated
(compact.go:111, unconditional). -/
def compactTick (entries : List (Key × Option Block)) : TickState :=
  let st := runRange initTick entries
  { st with jobs := st.jobs ++ [⟨st.merged, st.blocks, st.schema⟩] }

/-- The body of a scheduled merge task (compact.go:116): merge the blocks, append
the output to the destination — on error log and abort without touching the
buffer — and on success delete the consumed keys from the buffer (the disk
store). `merge` is the merger, `destAppend` the destination appender's result. -/
def mergeTask {α : Type} (merge : List Block → Schema → Key × List Nat)
    (destAppend : Key → List Nat → Option Err)
    (eng : DeleteEngine) (closed : Bool)
    (keys : List Key) (blocks : List Block) (schema : Schema)
    (st : List (Key × α)) : List (Key × α) × Option Err :=
  let kv := merge blocks schema
  match destAppend kv.1 kv.2 with
  | some e => (st, some e)
  | none => diskDelete eng closed st keys

/-- Modelled from the spec: `orc.SchemaFor` (`internal/encoding/orc`) is not
under src/; it derives a columnar writer schema from the target schema (spec
section 4.6), modelled to fail exactly when a column has the unsupported type. -/
def orcSchemaFor (s : Schema) : Option Unit :=
  if s.all (fun p => p.2 ≠ .unsupported) then some () else none

/-- The column picked by `flush.Merge` for one target-schema entry (flush.go:82):
the block's own column when present and of the right kind, otherwise a freshly
allocated empty column of the target type. -/
def pickCol (rows : Columns) (name : String) (t : Typ) : Column :=
  match List.lookup name rows with
  | some col => if col.kind = t then col else Column.new t
  | none => Column.new t

/-- The per-block column selection of `flush.Merge` (flush.go:80): for each name
of the target schema pick a column from the block's selected rows. -/
def preCols (blk : Block) (schema : Schema) : Columns :=
  let rows := blk.select (Block.schema blk)
  schema.map (fun p => (p.1, pickCol rows p.1 p.2))

/-- The columns emitted to the writer for one block (flush.go:80): the selected
columns after `FillNulls`. -/
def mergeBlockCols (blk : Block) (schema : Schema) : Columns :=
  (Columns.fillNulls (preCols blk schema)).1

/-- Result of `flush.Merge`: a file name plus the emitted row groups, a nil
result on a writer failure, or a runtime panic. -/
inductive MergeResult where
  | ok (fileName : List Nat) (groups : List Columns)
  | failed
  | panicked
deriving Repr

/-- `flush.Merge` (flush.go:61): derive the writer schema (on failure return
nil), emit one row group per block, close the writer, and finally compute the
output file name from `blocks[0]` — an out-of-bounds index, hence a panic, when
the block list is empty (flush.go:112). Writer errors are not modelled as no
claim depends on them. -/
def flushMerge (fileNameOf : Block → List Nat) (blocks : List Block)
    (schema : Schema) : MergeResult :=
  match orcSchemaFor schema with
  | none => .failed
  | some _ =>
    let groups := blocks.map (fun blk => mergeBlockCols blk schema)
    match blocks.head? with
    | none => .panicked
    | some b0 => .ok (fileNameOf b0) groups

/-- A row under construction: a schema and the name-to-value map
(`internal/encoding/block`, Row). -/
structure Row where
  schema : Schema
  values : List (String × Option Value)
deriving DecidableEq, Repr

/-- A computed column: a name, a type and a pure function of the row
(spec section 9: `Computed` is `{Name, Type, Apply(Row) -> Value}`). -/
structure Computed where
  name : String
  kind : Typ
  apply : List (String × Option Value) → Option Value

/-- Modelled from the spec: the filtering step of `Row.Transform`
(block/transform.go is not under src/; spec section 4.3): a source column is
dropped when its name is not in the filter schema; kept as is when the filter
type matches; when the filter type differs, a string cell is coerced through
`tryParse` (parse failure yields null), and a non-string cell is dropped —
`tryParse` operates on strings only, matching `TestTransform` in src, where an
int32 cell under a string filter type disappears from the output. -/
def keepFn (tryP : String → Typ → Option Value) (f : Schema)
    (vals : List (String × Option Value)) (p : String × Typ) :
    Option (String × Typ × Option Value) :=
  match List.lookup p.1 f with
  | none => none
  | some ft =>
    if ft = p.2 then some (p.1, p.2, (List.lookup p.1 vals).getD none)
    else
      match (List.lookup p.1 vals).getD none with
      | some (.str s) =>
        match tryP s ft with
        | some w => some (p.1, ft, some w)
        | none => some (p.1, ft, none)
      | _ => none

/-- Modelled from the spec: `Row.Transform(computed, filter)` (block/transform.go
is not under src/; spec section 4.3) returns a brand-new row with the filter
schema applied and the computed columns evaluated and appended; the receiver is
not mutated, so the pair returned is (new row, receiver after the call) with the
second component the untouched input. `tryP` abstracts the `tryParse` coercion. -/
def Row.transform (r : Row) (computed : List Computed) (filt : Option Schema)
    (tryP : String → Typ → Option Value) : Row × Row :=
  let kept :=
    match filt with
    | none => r.schema.map (fun p => (p.1, p.2, (List.lookup p.1 r.values).getD none))
    | some f => r.schema.filterMap (keepFn tryP f r.values)
  let comps := computed.map (fun comp => (comp.name, comp.kind, comp.apply r.values))
  let all := kept ++ comps
  (⟨all.map (fun q => (q.1, q.2.1)), all.map (fun q => (q.1, q.2.2))⟩, r)

/-! Concrete inputs used by the witnesses below. -/

/-- A small uneven columns set: one cell under `a`, two cells under `b`. -/
def wCols : Columns :=
  [("a", ⟨.int32, [some (.i32 1)]⟩), ("b", ⟨.int32, [some (.i32 2), some (.i32 3)]⟩)]

/-- A single-column set used by the append witnesses. -/
def wCols1 : Columns := [("a", ⟨.int32, [some (.i32 7)]⟩)]

/-- A valid single-row block over one int32 column. -/
def wBlock1 : Block := [("a", ⟨.int32, [some (.i32 1)]⟩)]

/-- A key in partition 1. -/
def wKey1 : Key := Key.new 1 10 0

/-- A second key in partition 1. -/
def wKey2 : Key := Key.new 1 11 0

/-- A third key, in partition 2. -/
def wKey3 : Key := Key.new 2 12 0

/-- An engine that accepts a single pending write per transaction, so that a
multi-key delete reports transaction-too-big mid-way. -/
def wEng : DeleteEngine := ⟨1, [], []⟩

/-- The keys deleted by the delete witnesses. -/
def wKeys : List Key := [wKey1, wKey2, wKey3]

/-- A buffer store holding the three keys plus one survivor. -/
def wStore : List (Key × Nat) :=
  [(wKey1, 10), (wKey2, 11), (wKey3, 12), (Key.new 3 13 0, 13)]

/-- A merger stub returning a fixed key-value output. -/
def wMerge : List Block → Schema → Key × List Nat := fun _ _ => ([9], [1, 2])

/-- A destination appender that always succeeds. -/
def wAppendOk : Key → List Nat → Option Err := fun _ _ => none

/-- A destination appender that always fails. -/
def wAppendErr : Key → List Nat → Option Err := fun _ _ => some (.internal "boom")

/-- Scenario S4, first block: columns col0, col1, col2 with one row. -/
def wBlk4 : Block :=
  [("col0", ⟨.string, [some (.str "v")]⟩),
   ("col1", ⟨.int64, [some (.i64 1)]⟩),
   ("col2", ⟨.float64, [some (.f64 2)]⟩)]

/-- Scenario S4, the superset target schema including col3. -/
def wSchema4 : Schema :=
  [("col0", .string), ("col1", .int64), ("col2", .float64), ("col3", .json)]

/-- A file-name function stub for the merge witnesses. -/
def wFileName : Block → List Nat := fun _ => [0]

/-- The input row of `TestTransform` (transform_test.go:34): schema
a:string, b:timestamp, c:int32 with one value each. -/
def wRow : Row :=
  ⟨[("a", .string), ("b", .timestamp), ("c", .int32)],
   [("a", some (.str "hello")), ("b", some (.ts 0 0)), ("c", some (.i32 123))]⟩

/-- The filter schema of `TestTransform` (transform_test.go:27): keep b, coerce c
to string, compute data as JSON. -/
def wFilt : Schema := [("b", .timestamp), ("c", .string), ("data", .json)]

/-- The computed column of `TestTransform`. -/
def wComps : List Computed := [⟨"data", .json, fun _ => some (.json "x")⟩]

/-- A parse stub that never succeeds. -/
def wTryP : String → Typ → Option Value := fun _ _ => none

/-! Helper lemmas. -/

theorem Column.appN_fst (c : Column) : ∀ n : Nat,
    ((c.appN n).1) = ⟨c.kind, c.data ++ List.replicate n none⟩ := by
  intro n
  induction n generalizing c with
  | zero => simp [Column.appN]
  | succ n ih =>
    simp only [Column.appN, Column.app, cell]
    rw [ih]
    simp [List.replicate_succ]

theorem Column.appN_count (c : Column) (n : Nat) :
    ((c.appN n).1).count = c.count + n := by
  rw [Column.appN_fst]
  simp [Column.count]

theorem Columns.max_cons (q : String × Column) (rest : Columns) :
    Columns.max (q :: rest) = Nat.max q.2.count (Columns.max rest) := rfl

theorem Columns.count_le_max : ∀ c : Columns, ∀ p ∈ c, p.2.count ≤ Columns.max c := by
  intro c
  induction c with
  | nil => intro p hp; cases hp
  | cons q rest ih =>
    intro p hp
    rcases List.mem_cons.mp hp with h | h
    · subst h; rw [Columns.max_cons]; exact Nat.le_max_left _ _
    · exact Nat.le_trans (ih p h) (by rw [Columns.max_cons]; exact Nat.le_max_right _ _)

theorem foldrMax_base (l : List Nat) (b : Nat) :
    l.foldr Nat.max b = Nat.max (l.foldr Nat.max 0) b := by
  induction l with
  | nil => simp
  | cons x t ih => simp [ih, Nat.max_assoc]

theorem Columns.max_append_single (c : Columns) (name : String) (col : Column) :
    Columns.max (c ++ [(name, col)]) = Nat.max (Columns.max c) col.count := by
  simp only [Columns.max, List.map_append, List.foldr_append, List.map_cons,
    List.map_nil, List.foldr_cons, List.foldr_nil]
  rw [foldrMax_base]
  simp

theorem lookup_map_keyed {β γ : Type} (g : String → β → γ) (a : String) :
    ∀ l : List (String × β),
      List.lookup a (l.map (fun p => (p.1, g p.1 p.2))) = (List.lookup a l).map (g a) := by
  intro l
  induction l with
  | nil => simp [List.lookup]
  | cons q rest ih =>
    by_cases h : a = q.1
    · simp [List.lookup, h]
    · have hb : (a == q.1) = false := by simp [beq_iff_eq, h]
      simp [List.lookup, hb, ih]

theorem lookup_map_val {β γ : Type} (g : β → γ) (a : String) :
    ∀ l : List (String × β),
      List.lookup a (l.map (fun p => (p.1, g p.2))) = (List.lookup a l).map g := by
  intro l
  induction l with
  | nil => simp [List.lookup]
  | cons q rest ih =>
    by_cases h : a = q.1
    · simp [List.lookup, h]
    · have hb : (a == q.1) = false := by simp [beq_iff_eq, h]
      simp [List.lookup, hb, ih]

theorem lookup_append_left_none {β : Type} (a : String) (c d : List (String × β))
    (h : List.lookup a c = none) : List.lookup a (c ++ d) = List.lookup a d := by
  induction c with
  | nil => simp
  | cons q rest ih =>
    by_cases hq : a = q.1
    · simp [List.lookup, hq] at h
    · have hb : (a == q.1) = false := by simp [beq_iff_eq, hq]
      simp only [List.lookup, hb, List.cons_append] at h ⊢
      exact ih h

theorem lookup_isSome_of_mem_keys {β : Type} (a : String) :
    ∀ l : List (String × β), a ∈ l.map (fun p => p.1) → (List.lookup a l).isSome := by
  intro l
  induction l with
  | nil => simp
  | cons q rest ih =>
    intro hmem
    by_cases h : a = q.1
    · simp [List.lookup, h]
    · have hb : (a == q.1) = false := by simp [beq_iff_eq, h]
      simp only [List.map_cons, List.mem_cons] at hmem
      rcases hmem with hh | hh
      · exact absurd hh h
      · simp only [List.lookup, hb]
        exact ih hh

theorem Block.select_self (b : Block) : b.select (Block.schema b) = b := by
  apply List.filter_eq_self.mpr
  intro p hp
  apply lookup_isSome_of_mem_keys
  rw [Block.schema, List.map_map]
  exact List.mem_map.mpr ⟨p, hp, rfl⟩

theorem Columns.max_of_const : ∀ (l : Columns) (m : Nat), l ≠ [] →
    (∀ p ∈ l, p.2.count = m) → Columns.max l = m := by
  intro l
  induction l with
  | nil => intro m h; exact absurd rfl h
  | cons q rest ih =>
    intro m _ hall
    rw [Columns.max_cons, hall q (List.mem_cons_self q rest)]
    cases hr : rest with
    | nil => simp [Columns.max]
    | cons r t =>
      rw [← hr, ih m (by rw [hr]; exact List.cons_ne_nil r t)
        (fun p hp => hall p (List.mem_cons_of_mem q hp))]
      exact Nat.max_self m

/-! Claim theorems. -/

/-- C3: every key produced by the key codec is exactly 24 bytes long, and
`HashOf` applied to it returns its first 8 bytes — the hashBy component. -/
theorem key_codec_length_and_hash (h s u : Nat) :
    (Key.new h s u).length = 24
    ∧ Key.hashOf (Key.new h s u) = beBytes8 h
    ∧ Key.hashOf (Key.new h s u) = (Key.new h s u).take 8 :=
  ⟨rfl, rfl, rfl⟩

/-- C7: `Columns.Append` with a name failing the validity pattern returns 0 and
leaves the set unchanged — no column created, none appended to, `Max` unchanged. -/
theorem columns_append_invalid_name (c : Columns) (name : String) (v : Option Value)
    (t : Typ) (h : IsValidName name = false) :
    Columns.append c name v t = (c, 0)
    ∧ Columns.max (Columns.append c name v t).1 = Columns.max c := by
  refine ⟨by simp [Columns.append, h], ?_⟩
  simp [Columns.append, h]

/-- Witness for C7 at scenario S2: appending under the name "/api/v1" returns 0
and mutates nothing. -/
theorem columns_append_invalid_name_witness :
    Columns.append wCols1 "/api/v1" (some (Value.i32 1)) Typ.int32 = (wCols1, 0)
    ∧ Columns.max (Columns.append wCols1 "/api/v1" (some (Value.i32 1)) Typ.int32).1
        = Columns.max wCols1 :=
  columns_append_invalid_name wCols1 "/api/v1" (some (Value.i32 1)) Typ.int32 (by decide)

/-- C6: `Columns.Append` with a valid fresh name and a supported type creates a
new column, pre-pads it with `Max()-1` nulls, appends the value, and the new
column's count equals the set's maximum count afterwards. -/
theorem columns_append_new_column (c : Columns) (name : String) (v : Option Value)
    (t : Typ) (hname : IsValidName name = true)
    (hfresh : List.lookup name c = none) (ht : t ≠ Typ.unsupported) :
    (Columns.append c name v t).1
        = c ++ [(name, ⟨t, List.replicate (Columns.max c - 1) none ++ [cell t v]⟩)]
    ∧ List.lookup name (Columns.append c name v t).1
        = some ⟨t, List.replicate (Columns.max c - 1) none ++ [cell t v]⟩
    ∧ (Column.mk t (List.replicate (Columns.max c - 1) none ++ [cell t v])).count
        = Columns.max (Columns.append c name v t).1 := by
  have h1 : (Columns.append c name v t).1
      = c ++ [(name, ⟨t, List.replicate (Columns.max c - 1) none ++ [cell t v]⟩)] := by
    simp [Columns.append, hname, hfresh, ht, Column.appN_fst, Column.app, Column.new]
  refine ⟨h1, ?_, ?_⟩
  · rw [h1, lookup_append_left_none name c _ hfresh]
    simp [List.lookup]
  · rw [h1, Columns.max_append_single]
    simp only [Column.count, List.length_append, List.length_replicate,
      List.length_cons, List.length_nil, Nat.add_zero, Nat.zero_add]
    rcases Nat.eq_zero_or_pos (Columns.max c) with h0 | h0
    · rw [h0]; simp
    · rw [Nat.sub_add_cancel h0]; exact (Nat.max_self _).symm

/-- Witness for C6: appending a string value under the fresh name "b" to a
one-column set. -/
theorem columns_append_new_column_witness :
    (Columns.append wCols1 "b" (some (Value.str "hi")) Typ.string).1
        = wCols1 ++ [("b", ⟨Typ.string,
            List.replicate (Columns.max wCols1 - 1) none
              ++ [cell Typ.string (some (Value.str "hi"))]⟩)]
    ∧ List.lookup "b" (Columns.append wCols1 "b" (some (Value.str "hi")) Typ.string).1
        = some ⟨Typ.string, List.replicate (Columns.max wCols1 - 1) none
            ++ [cell Typ.string (some (Value.str "hi"))]⟩
    ∧ (Column.mk Typ.string (List.replicate (Columns.max wCols1 - 1) none
          ++ [cell Typ.string (some (Value.str "hi"))])).count
        = Columns.max (Columns.append wCols1 "b" (some (Value.str "hi")) Typ.string).1 :=
  columns_append_new_column wCols1 "b" (some (Value.str "hi")) Typ.string
    (by decide) (by decide) (by decide)

/-- C4: after `FillNulls` every column's count equals the set's maximum; the
maximum is unchanged; and each column is its old self extended by exactly the
nulls needed to reach the old maximum — only nulls, and only on columns that
were below it. -/
theorem columns_fillNulls_equalizes (c : Columns) :
    Columns.max (Columns.fillNulls c).1 = Columns.max c
    ∧ (Columns.fillNulls c).1
        = c.map (fun q => (q.1,
            ⟨q.2.kind, q.2.data ++ List.replicate (Columns.max c - q.2.count) none⟩))
    ∧ ∀ p ∈ (Columns.fillNulls c).1,
        p.2.count = Columns.max (Columns.fillNulls c).1 := by
  have hstruct : (Columns.fillNulls c).1
      = c.map (fun q => (q.1,
          ⟨q.2.kind, q.2.data ++ List.replicate (Columns.max c - q.2.count) none⟩)) := by
    simp only [Columns.fillNulls]
    exact List.map_congr_left (fun p _ => by rw [Column.appN_fst])
  have hcount : ∀ p ∈ (Columns.fillNulls c).1, p.2.count = Columns.max c := by
    intro p hp
    rw [hstruct] at hp
    obtain ⟨q, hq, rfl⟩ := List.mem_map.mp hp
    have := Columns.count_le_max c q hq
    simp only [Column.count, List.length_append, List.length_replicate] at *
    omega
  have hmax : Columns.max (Columns.fillNulls c).1 = Columns.max c := by
    cases hc : c with
    | nil => simp [Columns.fillNulls, Columns.max]
    | cons q rest =>
      rw [← hc]
      refine Columns.max_of_const _ _ ?_ hcount
      rw [hstruct, hc]
      simp
  exact ⟨hmax, hstruct, fun p hp => by rw [hmax]; exact hcount p hp⟩

/-- C2, behavior of the code at the failing input: the compaction range callback
returns `true` on a decode failure (compact.go:84), and `disk.Range` stops the
whole iteration when the callback returns `true` (disk.go:137) — so a buffer
whose first record is undecodable ends the tick at once: the valid second
record is never visited, never accumulated, and the tick behaves exactly as if
the buffer ended at the bad record, contradicting the claimed
skip-and-continue. -/
theorem compact_decode_error_stops_scan :
    compactTick [(wKey1, none), (wKey2, some wBlock1)] = compactTick [(wKey1, none)]
    ∧ (compactTick [(wKey1, none), (wKey2, some wBlock1)]).jobs
        = [⟨[], [], []⟩]
    ∧ (compactTick [(wKey1, none), (wKey2, some wBlock1)]).decodeFailures = 1 := by
  refine ⟨rfl, rfl, rfl⟩

/-- C10: merging an empty block list reaches the out-of-bounds index `blocks[0]`
after the writer is closed — a panic — whenever the writer schema derivation
succeeds, and the compaction tick over an empty buffer unconditionally schedules
exactly one final merge job carrying zero blocks. -/
theorem flushMerge_empty_blocks_panics (fileNameOf : Block → List Nat)
    (schema : Schema) (h : (orcSchemaFor schema).isSome) :
    flushMerge fileNameOf [] schema = .panicked
    ∧ (compactTick []).jobs = [⟨[], [], []⟩] := by
  refine ⟨?_, rfl⟩
  obtain ⟨u, hu⟩ := Option.isSome_iff_exists.mp h
  simp [flushMerge, hu]

/-- Witness for C10 with the empty schema an empty tick accumulates. -/
theorem flushMerge_empty_blocks_panics_witness :
    flushMerge wFileName [] [] = .panicked
    ∧ (compactTick []).jobs = [⟨[], [], []⟩] :=
  flushMerge_empty_blocks_panics wFileName [] (by decide)

/-- Witness for C4 on the uneven two-column set: the short column is padded with
one null and reaches the maximum. -/
theorem columns_fillNulls_equalizes_witness :
    Columns.max (Columns.fillNulls wCols).1 = Columns.max wCols
    ∧ (Column.mk Typ.int32 [some (Value.i32 1), none]).count
        = Columns.max (Columns.fillNulls wCols).1 :=
  ⟨(columns_fillNulls_equalizes wCols).1,
   (columns_fillNulls_equalizes wCols).2.2
     ("a", ⟨Typ.int32, [some (Value.i32 1), none]⟩) (by decide)⟩

/-- C5: in the merger's per-block column selection, the block's own column is
used exactly when it exists under the target name with the target type, padded
to the row-group length; otherwise a fresh empty column of the target type is
substituted, and after `FillNulls` it is null on every row of the group — rows
from a block lacking a column are null for that column in the merged output. -/
theorem merge_substitutes_missing_columns (blk : Block) (schema : Schema)
    (name : String) (t : Typ) (hs : List.lookup name schema = some t) :
    (∀ col, List.lookup name blk = some col → col.kind = t →
      List.lookup name (mergeBlockCols blk schema)
        = some ⟨t, col.data ++ List.replicate
            (Columns.max (preCols blk schema) - col.count) none⟩)
    ∧ ((List.lookup name blk = none
          ∨ ∃ col, List.lookup name blk = some col ∧ col.kind ≠ t) →
      List.lookup name (mergeBlockCols blk schema)
        = some ⟨t, List.replicate (Columns.max (preCols blk schema)) none⟩) := by
  have hpre : List.lookup name (preCols blk schema) = some (pickCol blk name t) := by
    simp only [preCols, Block.select_self]
    rw [lookup_map_keyed, hs]
    rfl
  have hfill : List.lookup name (mergeBlockCols blk schema)
      = some ⟨(pickCol blk name t).kind,
          (pickCol blk name t).data
            ++ List.replicate (Columns.max (preCols blk schema)
                - (pickCol blk name t).count) none⟩ := by
    simp only [mergeBlockCols, Columns.fillNulls, Column.appN_fst]
    have hmv := lookup_map_val
      (fun col => (Column.appN col (Columns.max (preCols blk schema) - col.count)).1)
      name (preCols blk schema)
    rw [hpre] at hmv
    simp only [Option.map_some', Column.appN_fst] at hmv
    exact hmv
  constructor
  · intro col hcol hk
    rw [hfill]
    have hpick : pickCol blk name t = col := by
      simp [pickCol, hcol, hk]
    rw [hpick, hk]
  · intro hmiss
    have hpick : pickCol blk name t = Column.new t := by
      rcases hmiss with h | ⟨col, hcol, hk⟩
      · simp [pickCol, h]
      · simp [pickCol, hcol, hk]
    rw [hfill, hpick]
    simp [Column.new, Column.count]

/-- Witness for C5 at scenario S4: merging the block with columns col0..col2
against the superset schema containing col3 yields col3 = null on its one row. -/
theorem merge_substitutes_missing_columns_witness :
    List.lookup "col3" (mergeBlockCols wBlk4 wSchema4)
      = some ⟨Typ.json, [none]⟩ := by
  have h := (merge_substitutes_missing_columns wBlk4 wSchema4 "col3" Typ.json
    (by decide)).2 (Or.inl (by decide))
  rw [h]
  decide

theorem keepFn_sound (tryP : String → Typ → Option Value) (f : Schema)
    (vals : List (String × Option Value)) (p : String × Typ)
    (q : String × Typ × Option Value) (h : keepFn tryP f vals p = some q) :
    q.1 = p.1 ∧ List.lookup p.1 f = some q.2.1 := by
  unfold keepFn at h
  split at h
  · cases h
  · rename_i ft hf
    split at h
    · rename_i hft
      cases h
      exact ⟨rfl, by rw [hf, hft]⟩
    · split at h
      · split at h
        · cases h
          exact ⟨rfl, hf⟩
        · cases h
          exact ⟨rfl, hf⟩
      · cases h

/-- C9: `Row.Transform(computed, filter)` does not mutate its input — the
receiver after the call is exactly the input row — and every entry of the output
schema either comes from the filter schema (with the filter's type) or is one of
the computed columns. -/
theorem row_transform_pure_and_filtered (r : Row) (computed : List Computed)
    (f : Schema) (tryP : String → Typ → Option Value) :
    (Row.transform r computed (some f) tryP).2 = r
    ∧ ∀ name t, (name, t) ∈ (Row.transform r computed (some f) tryP).1.schema →
        List.lookup name f = some t
        ∨ ∃ comp ∈ computed, comp.name = name ∧ comp.kind = t := by
  refine ⟨rfl, ?_⟩
  intro name t hmem
  simp only [Row.transform, List.map_append] at hmem
  rcases List.mem_append.mp hmem with hk | hc
  · obtain ⟨q, hq, hqe⟩ := List.mem_map.mp hk
    obtain ⟨p, _, hkeep⟩ := List.mem_filterMap.mp hq
    obtain ⟨h1, h2⟩ := keepFn_sound tryP f r.values p q hkeep
    left
    cases hqe
    rw [h1]
    exact h2
  · right
    obtain ⟨q, hq, hqe⟩ := List.mem_map.mp hc
    obtain ⟨comp, hcm, hce⟩ := List.mem_map.mp hq
    refine ⟨comp, hcm, ?_⟩
    cases hce
    cases hqe
    exact ⟨rfl, rfl⟩

/-- Witness for C9 replicating `TestTransform` (transform_test.go:15): the input
row is unchanged and the output schema is exactly b (from the filter) and data
(computed) — a, and c whose filter type differs from its int32 cell, are gone. -/
theorem row_transform_pure_and_filtered_witness :
    (Row.transform wRow wComps (some wFilt) wTryP).2 = wRow
    ∧ (List.lookup "b" wFilt = some Typ.timestamp
        ∨ ∃ comp ∈ wComps, comp.name = "b" ∧ comp.kind = Typ.timestamp)
    ∧ (Row.transform wRow wComps (some wFilt) wTryP).1.schema
        = [("b", Typ.timestamp), ("data", Typ.json)] := by
  refine ⟨(row_transform_pure_and_filtered wRow wComps wFilt wTryP).1,
    (row_transform_pure_and_filtered wRow wComps wFilt wTryP).2 "b" Typ.timestamp ?_,
    rfl⟩
  show ("b", Typ.timestamp) ∈ [("b", Typ.timestamp), ("data", Typ.json)]
  exact List.mem_cons_self _ _

theorem applyDel_nil {α : Type} (st : List (Key × α)) : applyDel [] st = st := by
  simp [applyDel]

theorem applyDel_snoc_cons {α : Type} (pending rest : List Key) (k : Key)
    (st : List (Key × α)) :
    applyDel rest (applyDel (pending ++ [k]) st)
      = applyDel (k :: rest) (applyDel pending st) := by
  simp only [applyDel, List.filter_filter]
  apply List.filter_congr
  intro x _
  by_cases h1 : x.1 ∈ rest <;> by_cases h2 : x.1 ∈ pending <;> by_cases h3 : x.1 = k <;>
    simp [h1, h2, h3, List.mem_append, List.mem_cons]

theorem applyDel_single_cons {α : Type} (rest : List Key) (k : Key)
    (st : List (Key × α)) :
    applyDel rest (applyDel [k] st) = applyDel (k :: rest) st := by
  have h := applyDel_snoc_cons [] rest k st
  simpa [applyDel_nil] using h

theorem deleteLoop_sound {α : Type} (eng : DeleteEngine) :
    ∀ (ks : List Key) (committed : List (Key × α)) (pending : List Key) (cIdx : Nat),
      (deleteLoop eng committed pending cIdx ks).2 = none →
      (deleteLoop eng committed pending cIdx ks).1
        = applyDel ks (applyDel pending committed) := by
  intro ks
  induction ks with
  | nil =>
    intro committed pending cIdx h
    by_cases hc : cIdx ∈ eng.commitFailAt
    · simp [deleteLoop, hc] at h
    · simp [deleteLoop, hc, applyDel_nil]
  | cons k rest ih =>
    intro committed pending cIdx h
    simp only [deleteLoop] at h ⊢
    cases hat : eng.attempt pending.length k with
    | failed => simp [hat] at h
    | ok =>
      simp only [hat] at h ⊢
      rw [ih _ _ _ h, applyDel_snoc_cons]
    | tooBig =>
      simp only [hat] at h ⊢
      by_cases hc : cIdx ∈ eng.commitFailAt
      · simp [hc] at h
      · rw [if_neg hc] at h ⊢
        cases hat2 : eng.attempt 0 k with
        | ok =>
          simp only [hat2] at h ⊢
          rw [ih _ _ _ h, applyDel_single_cons]
        | tooBig => simp [hat2] at h
        | failed => simp [hat2] at h

theorem deleteLoop_ok {α : Type} (eng : DeleteEngine)
    (hcommit : eng.commitFailAt = []) (hcap : 1 ≤ eng.txnCap) :
    ∀ (ks : List Key), (∀ k ∈ ks, k ∉ eng.failOn) →
      ∀ (committed : List (Key × α)) (pending : List Key) (cIdx : Nat),
        (deleteLoop eng committed pending cIdx ks).2 = none := by
  intro ks
  induction ks with
  | nil =>
    intro _ committed pending cIdx
    simp [deleteLoop, hcommit]
  | cons k rest ih =>
    intro hf committed pending cIdx
    have hk : k ∉ eng.failOn := hf k (List.mem_cons_self k rest)
    have hrest : ∀ k' ∈ rest, k' ∉ eng.failOn :=
      fun k' h' => hf k' (List.mem_cons_of_mem k h')
    simp only [deleteLoop]
    cases hat : eng.attempt pending.length k with
    | failed =>
      exfalso
      unfold DeleteEngine.attempt at hat
      rw [if_neg hk] at hat
      by_cases hb : eng.txnCap ≤ pending.length <;> simp [hb] at hat
    | ok =>
      simp only [hat]
      exact ih hrest _ _ _
    | tooBig =>
      have hat2 : eng.attempt 0 k = .ok := by
        unfold DeleteEngine.attempt
        rw [if_neg hk, if_neg (by omega : ¬ eng.txnCap ≤ 0)]
      simp only [hat, hcommit, List.not_mem_nil, if_false, hat2]
      exact ih hrest _ _ _

theorem deleteLoop_err {α : Type} (eng : DeleteEngine) :
    ∀ (ks : List Key) (committed : List (Key × α)) (pending : List Key)
      (cIdx : Nat) (e : Err),
      (deleteLoop eng committed pending cIdx ks).2 = some e → e.isInternal = true := by
  intro ks
  induction ks with
  | nil =>
    intro committed pending cIdx e h
    by_cases hc : cIdx ∈ eng.commitFailAt <;> simp [deleteLoop, hc] at h
    · rw [← h]; rfl
  | cons k rest ih =>
    intro committed pending cIdx e h
    simp only [deleteLoop] at h
    cases hat : eng.attempt pending.length k with
    | failed =>
      simp only [hat] at h
      cases h
      rfl
    | ok =>
      simp only [hat] at h
      exact ih _ _ _ _ h
    | tooBig =>
      simp only [hat] at h
      by_cases hc : cIdx ∈ eng.commitFailAt
      · rw [if_pos hc] at h
        cases h
        rfl
      · rw [if_neg hc] at h
        cases hat2 : eng.attempt 0 k with
        | ok =>
          simp only [hat2] at h
          exact ih _ _ _ _ h
        | tooBig =>
          simp only [hat2] at h
          cases h
          rfl
        | failed =>
          simp only [hat2] at h
          cases h
          rfl

theorem diskDelete_open {α : Type} (eng : DeleteEngine) (st : List (Key × α))
    (keys : List Key) : diskDelete eng false st keys = deleteLoop eng st [] 0 keys := rfl

/-- C8: `disk.Delete` deletes all given keys; a transaction-too-big report from
the engine mid-way is handled by committing, reopening and re-issuing the delete,
transparently to the caller — for every per-transaction capacity of at least one
pending write, the result is exactly the store minus the keys, with no error —
while any engine or commit failure surfaces as an Internal error. -/
theorem disk_delete_txn_split_transparent {α : Type} (eng : DeleteEngine)
    (st : List (Key × α)) (keys : List Key)
    (hcap : 1 ≤ eng.txnCap) (hfail : ∀ k ∈ keys, k ∉ eng.failOn)
    (hcommit : eng.commitFailAt = []) :
    diskDelete eng false st keys = (applyDel keys st, none)
    ∧ ∀ (eng₂ : DeleteEngine) (st₂ : List (Key × α)) (keys₂ : List Key) (e : Err),
        (diskDelete eng₂ false st₂ keys₂).2 = some e → e.isInternal = true := by
  constructor
  · have h2 : (deleteLoop eng st ([] : List Key) 0 keys).2 = none :=
      deleteLoop_ok eng hcommit hcap keys hfail st [] 0
    have h1 := deleteLoop_sound eng keys st [] 0 h2
    rw [applyDel_nil] at h1
    rw [diskDelete_open, Prod.ext_iff]
    exact ⟨h1, h2⟩
  · intro eng₂ st₂ keys₂ e he
    rw [diskDelete_open] at he
    exact deleteLoop_err eng₂ keys₂ st₂ [] 0 e he

/-- Witness for C8: with a capacity of one pending write per transaction the
engine reports transaction-too-big on every key after the first, yet the
three-key delete succeeds with no error and removes exactly those keys; and a
hard engine failure surfaces as an Internal error. -/
theorem disk_delete_txn_split_transparent_witness :
    diskDelete wEng false wStore wKeys = (applyDel wKeys wStore, none)
    ∧ applyDel wKeys wStore = [(Key.new 3 13 0, 13)]
    ∧ Err.isInternal (Err.internal "unable to delete") = true := by
  have h := disk_delete_txn_split_transparent wEng wStore wKeys
    (by decide) (by decide) rfl
  exact ⟨h.1, by decide,
    h.2 ⟨1, [wKey1], []⟩ wStore wKeys (Err.internal "unable to delete") (by decide)⟩

/-- C1: a compaction merge task appends the merged output to the destination
first; on an append error the task aborts with that error and the buffer is
untouched; and whenever the task completes with no error — which requires the
append to have succeeded — exactly the consumed keys have been deleted from the
buffer. -/
theorem compact_mergeTask_delete_after_append {α : Type}
    (merge : List Block → Schema → Key × List Nat)
    (destAppend : Key → List Nat → Option Err) (eng : DeleteEngine)
    (keys : List Key) (blocks : List Block) (schema : Schema)
    (st : List (Key × α)) :
    (∀ e, destAppend (merge blocks schema).1 (merge blocks schema).2 = some e →
        mergeTask merge destAppend eng false keys blocks schema st = (st, some e))
    ∧ ((mergeTask merge destAppend eng false keys blocks schema st).2 = none →
        (mergeTask merge destAppend eng false keys blocks schema st).1
          = applyDel keys st) := by
  constructor
  · intro e he
    simp [mergeTask, he]
  · intro hnone
    simp only [mergeTask] at hnone ⊢
    cases hda : destAppend (merge blocks schema).1 (merge blocks schema).2 with
    | some e => simp [hda] at hnone
    | none =>
      simp only [hda] at hnone ⊢
      rw [diskDelete_open] at hnone ⊢
      rw [deleteLoop_sound eng keys st [] 0 hnone, applyDel_nil]

/-- Witness for C1: with a failing destination the buffer keeps all four
entries; with a succeeding destination and the same engine the task deletes
exactly the three consumed keys. -/
theorem compact_mergeTask_delete_after_append_witness :
    mergeTask wMerge wAppendErr wEng false wKeys [] [] wStore
      = (wStore, some (Err.internal "boom"))
    ∧ (mergeTask wMerge wAppendOk wEng false wKeys [] [] wStore).1
      = applyDel wKeys wStore :=
  ⟨(compact_mergeTask_delete_after_append wMerge wAppendErr wEng wKeys [] []
      wStore).1 (Err.internal "boom") rfl,
   (compact_mergeTask_delete_after_append wMerge wAppendOk wEng wKeys [] []
      wStore).2 rfl⟩

end Talaria
